import Mathlib

/-!
Verification of the OctoScreen `octoprint/tool.go` command/response layer.

We shallowly embed the Go code: JSON documents become the inductive `JsonVal`
(a raw byte string is represented by its parse outcome `Option JsonVal`,
`none` standing for bytes that are not valid JSON); Go maps become
association lists kept in a canonical strictly-key-sorted form (Go map
iteration order is unspecified and `json.Marshal` sorts map keys, so the
canonical form is the observable one); fallible decoding returns `Option`.

Types that `tool.go` references but that live outside the provided sources
(`CurrentState`, `History`, the `Client` transport) are modelled from the
spec, as marked on their doc comments.
-/

/-- A parsed JSON document, as produced by Go's `encoding/json` generic
decoding: null, booleans, numbers (Go decodes into `float64`; we use `ℚ`,
which all JSON numeric literals denote exactly), strings, arrays and
objects (field lists, possibly with duplicate keys in raw wire data). -/
inductive JsonVal : Type where
  | null : JsonVal
  | bool (b : Bool) : JsonVal
  | num (q : ℚ) : JsonVal
  | str (s : String) : JsonVal
  | arr (elems : List JsonVal) : JsonVal
  | obj (fields : List (String × JsonVal)) : JsonVal

namespace JsonVal

/-- Whether a JSON value is an object. -/
def isObj : JsonVal → Bool
  | .obj _ => true
  | _ => false

end JsonVal

/-! ### Association-list maps

Go maps are modelled as association lists in canonical form: keys strictly
increasing in the lexicographic codepoint order (UTF-8 byte order, the
order `json.Marshal` sorts map keys in), hence no duplicates.  `insertKV`
inserts preserving the canonical form (replacing an existing binding, as Go
map assignment does), `toMap` builds the canonical form from a raw field
list (later duplicate keys win, as in Go's JSON-object decoding), `alookup`
looks a key up and `eraseKey` models `delete`. -/

/-- Lexicographic strict order on character lists by codepoint.  UTF-8
byte order coincides with codepoint order, so this is the order Go's
`sort.Strings` (used by `json.Marshal` on map keys) sorts in. -/
def clLt : List Char → List Char → Bool
  | [], [] => false
  | [], _ :: _ => true
  | _ :: _, [] => false
  | a :: as, b :: bs =>
    if a.toNat < b.toNat then true
    else if b.toNat < a.toNat then false
    else clLt as bs

/-- Strict order on map keys. -/
def keyLt (a b : String) : Bool := clLt a.data b.data

theorem clLt_irrefl (l : List Char) : clLt l l = false := by
  induction l with
  | nil => rfl
  | cons a as ih => simp [clLt, ih]

theorem clLt_trans {a b c : List Char} (h₁ : clLt a b = true)
    (h₂ : clLt b c = true) : clLt a c = true := by
  induction a generalizing b c with
  | nil =>
    cases b with
    | nil => simp [clLt] at h₁
    | cons y ys =>
      cases c with
      | nil => simp [clLt] at h₂
      | cons z zs => simp [clLt]
  | cons x xs ih =>
    cases b with
    | nil => simp [clLt] at h₁
    | cons y ys =>
      cases c with
      | nil => simp [clLt] at h₂
      | cons z zs =>
        simp only [clLt] at h₁ h₂ ⊢
        by_cases hxy : x.toNat < y.toNat
        · by_cases hyz : y.toNat < z.toNat
          · have : x.toNat < z.toNat := Nat.lt_trans hxy hyz
            simp [this]
          · by_cases hzy : z.toNat < y.toNat
            · simp [hyz, hzy] at h₂
            · have : x.toNat < z.toNat := by omega
              simp [this]
        · by_cases hyx : y.toNat < x.toNat
          · simp [hxy, hyx] at h₁
          · simp only [if_neg hxy, if_neg hyx] at h₁
            by_cases hyz : y.toNat < z.toNat
            · have : x.toNat < z.toNat := by omega
              simp [this]
            · by_cases hzy : z.toNat < y.toNat
              · simp [hyz, hzy] at h₂
              · simp only [if_neg hyz, if_neg hzy] at h₂
                have hne : ¬ x.toNat < z.toNat := by omega
                have hne' : ¬ z.toNat < x.toNat := by omega
                simp only [if_neg hne, if_neg hne']
                exact ih h₁ h₂

theorem clLt_eq_of_not {a b : List Char} (h₁ : clLt a b = false)
    (h₂ : clLt b a = false) : a = b := by
  induction a generalizing b with
  | nil =>
    cases b with
    | nil => rfl
    | cons y ys => simp [clLt] at h₁
  | cons x xs ih =>
    cases b with
    | nil => simp [clLt] at h₂
    | cons y ys =>
      simp only [clLt] at h₁ h₂
      by_cases hxy : x.toNat < y.toNat
      · simp [hxy] at h₁
      · by_cases hyx : y.toNat < x.toNat
        · simp [hyx, hxy] at h₂
        · have heq : x.toNat = y.toNat := by omega
          have hx : x = y := Char.ext (UInt32.ext heq)
          simp only [if_neg hxy, if_neg hyx] at h₁
          simp only [if_neg hyx, if_neg hxy] at h₂
          rw [hx, ih h₁ h₂]

theorem keyLt_irrefl (a : String) : keyLt a a = false := clLt_irrefl a.data

theorem keyLt_trans {a b c : String} (h₁ : keyLt a b = true)
    (h₂ : keyLt b c = true) : keyLt a c = true := clLt_trans h₁ h₂

theorem keyLt_eq_of_not {a b : String} (h₁ : keyLt a b = false)
    (h₂ : keyLt b a = false) : a = b := by
  have hd : a.data = b.data := clLt_eq_of_not h₁ h₂
  cases a; cases b; exact congrArg String.mk hd

theorem keyLt_asymm {a b : String} (h : keyLt a b = true) : keyLt b a = false := by
  cases hba : keyLt b a
  · rfl
  · exact absurd (keyLt_trans h hba) (by simp [keyLt_irrefl])

theorem keyLt_ne {a b : String} (h : keyLt a b = true) : a ≠ b := by
  intro hh
  subst hh
  exact absurd h (by simp [keyLt_irrefl])

/-- Ordered insert of a binding, replacing any existing binding of the key:
Go `m[k] = v` viewed through the canonical sorted representation. -/
def insertKV {α : Type} (k : String) (v : α) : List (String × α) → List (String × α)
  | [] => [(k, v)]
  | (k', v') :: rest =>
    if k = k' then (k, v) :: rest
    else if keyLt k k' then (k, v) :: (k', v') :: rest
    else (k', v') :: insertKV k v rest

/-- Build the Go map decoded from a JSON object's field list: bindings are
inserted in source order, so a later duplicate key overwrites an earlier
one, exactly as `encoding/json` populates a map. -/
def toMap {α : Type} (fs : List (String × α)) : List (String × α) :=
  fs.foldl (fun m p => insertKV p.1 p.2 m) []

/-- Key lookup in an association list (first binding wins; on canonical
lists keys are unique so this is the map lookup). -/
def alookup {α : Type} (k : String) : List (String × α) → Option α
  | [] => none
  | (k', v) :: rest => if k' = k then some v else alookup k rest

/-- Lookup of the LAST binding of a key: the value a Go map ends up holding
after inserting a raw field list in order. -/
def jlook {α : Type} (k : String) : List (String × α) → Option α
  | [] => none
  | (k', v) :: rest =>
    match jlook k rest with
    | some r => some r
    | none => if k' = k then some v else none

/-- Remove every binding of a key: Go `delete(m, k)` (on canonical lists
there is at most one binding). -/
def eraseKey {α : Type} (k : String) : List (String × α) → List (String × α)
  | [] => []
  | (k', v) :: rest => if k' = k then eraseKey k rest else (k', v) :: eraseKey k rest

/-- Canonical form: keys strictly increasing. -/
def KSorted {α : Type} (l : List (String × α)) : Prop :=
  l.Pairwise (fun p q => keyLt p.1 q.1 = true)

theorem ksorted_nil {α : Type} : KSorted ([] : List (String × α)) :=
  List.Pairwise.nil

theorem ksorted_cons_iff {α : Type} {p : String × α} {l : List (String × α)} :
    KSorted (p :: l) ↔ (∀ q ∈ l, keyLt p.1 q.1 = true) ∧ KSorted l := by
  unfold KSorted
  exact List.pairwise_cons

theorem alookup_eq_none {α : Type} {k : String} {l : List (String × α)} :
    alookup k l = none ↔ k ∉ l.map Prod.fst := by
  induction l with
  | nil => simp [alookup]
  | cons p rest ih =>
    obtain ⟨k', v⟩ := p
    by_cases h : k' = k
    · subst h
      simp [alookup]
    · simp [alookup, h, ih, Ne.symm h]

theorem jlook_eq_none {α : Type} {k : String} {l : List (String × α)} :
    jlook k l = none ↔ k ∉ l.map Prod.fst := by
  induction l with
  | nil => simp [jlook]
  | cons p rest ih =>
    obtain ⟨k', v⟩ := p
    cases hres : jlook k rest with
    | some r =>
      have hk : k ∈ rest.map Prod.fst := by
        by_contra hcon
        rw [← ih] at hcon
        exact absurd hres (by simp [hcon])
      simp only [jlook, hres, List.map_cons, List.mem_cons]
      constructor
      · intro h; exact absurd h (by simp)
      · intro h; exact absurd (Or.inr hk) h
    | none =>
      have hnot : k ∉ rest.map Prod.fst := ih.mp hres
      by_cases h : k' = k
      · subst h
        simp [jlook, hres]
      · simp [jlook, hres, h, Ne.symm h, hnot]

/-- On lists with no duplicate keys, first-wins and last-wins lookup agree. -/
theorem jlook_eq_alookup {α : Type} {k : String} {l : List (String × α)}
    (hnd : (l.map Prod.fst).Nodup) : jlook k l = alookup k l := by
  induction l with
  | nil => rfl
  | cons p rest ih =>
    obtain ⟨k', v⟩ := p
    simp only [List.map_cons, List.nodup_cons] at hnd
    have ihrest := ih hnd.2
    by_cases h : k' = k
    · subst h
      have : k' ∉ rest.map Prod.fst := hnd.1
      have hrest : jlook k' rest = none := jlook_eq_none.mpr this
      simp [jlook, alookup, hrest]
    · simp only [jlook, alookup, h, ihrest]
      cases alookup k rest <;> simp [h]

theorem alookup_eraseKey {α : Type} (k k' : String) (l : List (String × α)) :
    alookup k' (eraseKey k l) = if k' = k then none else alookup k' l := by
  induction l with
  | nil => simp [eraseKey, alookup]
  | cons p rest ih =>
    obtain ⟨k₀, v⟩ := p
    by_cases h : k₀ = k
    · subst h
      by_cases h' : k₀ = k'
      · subst h'
        simp [eraseKey, ih]
      · simp [eraseKey, alookup, h', ih]
    · by_cases h' : k₀ = k'
      · subst h'
        have hne : ¬ k₀ = k := h
        simp [eraseKey, hne, alookup, if_neg hne]
      · simp [eraseKey, h, alookup, h', ih]

theorem eraseKey_sublist {α : Type} (k : String) (l : List (String × α)) :
    List.Sublist (eraseKey k l) l := by
  induction l with
  | nil => exact List.Sublist.refl _
  | cons p rest ih =>
    by_cases h : p.1 = k
    · obtain ⟨k₀, v⟩ := p
      simp only at h
      simp only [eraseKey, if_pos h]
      exact ih.cons _
    · obtain ⟨k₀, v⟩ := p
      simp only at h
      simp only [eraseKey, if_neg h]
      exact ih.cons₂ _

theorem ksorted_eraseKey {α : Type} (k : String) {l : List (String × α)}
    (h : KSorted l) : KSorted (eraseKey k l) :=
  List.Pairwise.sublist (eraseKey_sublist k l) h

theorem alookup_insertKV_self {α : Type} (k : String) (v : α) (l : List (String × α)) :
    alookup k (insertKV k v l) = some v := by
  induction l with
  | nil => simp [insertKV, alookup]
  | cons p rest ih =>
    obtain ⟨k', v'⟩ := p
    by_cases h : k = k'
    · simp [insertKV, h, alookup]
    · by_cases hlt : keyLt k k' = true
      · simp [insertKV, h, hlt, alookup]
      · have hne' : ¬ k' = k := fun hh => h hh.symm
        simp [insertKV, h, hlt, alookup, hne', ih]

theorem alookup_insertKV_ne {α : Type} {k k' : String} (v : α) (l : List (String × α))
    (hne : k' ≠ k) : alookup k' (insertKV k v l) = alookup k' l := by
  have hne' : ¬ k = k' := fun hh => hne hh.symm
  induction l with
  | nil => simp [insertKV, alookup, hne']
  | cons p rest ih =>
    obtain ⟨k₀, v₀⟩ := p
    by_cases h : k = k₀
    · subst h
      simp [insertKV, alookup, hne']
    · by_cases hlt : keyLt k k₀ = true
      · simp [insertKV, h, hlt, alookup, hne']
      · simp [insertKV, h, hlt, alookup, ih]

theorem mem_insertKV {α : Type} {q : String × α} {k : String} {v : α}
    {l : List (String × α)} (h : q ∈ insertKV k v l) : q = (k, v) ∨ q ∈ l := by
  induction l with
  | nil => simpa [insertKV] using h
  | cons p rest ih =>
    obtain ⟨k₀, v₀⟩ := p
    by_cases hk : k = k₀
    · simp only [insertKV, if_pos hk, List.mem_cons] at h
      rcases h with h | h
      · exact Or.inl h
      · exact Or.inr (List.mem_cons_of_mem _ h)
    · by_cases hlt : keyLt k k₀ = true
      · simp only [insertKV, if_neg hk, if_pos hlt, List.mem_cons] at h
        rcases h with h | h | h
        · exact Or.inl h
        · exact Or.inr (List.mem_cons.mpr (Or.inl h))
        · exact Or.inr (List.mem_cons_of_mem _ h)
      · simp only [insertKV, if_neg hk, if_neg hlt, List.mem_cons] at h
        rcases h with h | h
        · exact Or.inr (List.mem_cons.mpr (Or.inl h))
        · rcases ih h with h | h
          · exact Or.inl h
          · exact Or.inr (List.mem_cons_of_mem _ h)

theorem ksorted_insertKV {α : Type} (k : String) (v : α) {l : List (String × α)}
    (h : KSorted l) : KSorted (insertKV k v l) := by
  induction l with
  | nil =>
    rw [show insertKV k v [] = [(k, v)] from rfl, ksorted_cons_iff]
    exact ⟨by simp, ksorted_nil⟩
  | cons p rest ih =>
    obtain ⟨k₀, v₀⟩ := p
    rw [ksorted_cons_iff] at h
    by_cases hk : k = k₀
    · simp only [insertKV, if_pos hk]
      rw [ksorted_cons_iff]
      exact ⟨fun q hq => hk ▸ h.1 q hq, h.2⟩
    · by_cases hlt : keyLt k k₀ = true
      · simp only [insertKV, if_neg hk, if_pos hlt]
        rw [ksorted_cons_iff]
        refine ⟨?_, ksorted_cons_iff.mpr h⟩
        intro q hq
        rcases List.mem_cons.mp hq with h' | h'
        · exact h' ▸ hlt
        · exact keyLt_trans hlt (h.1 q h')
      · have hlt' : keyLt k k₀ = false := by
          cases hkv : keyLt k k₀
          · rfl
          · exact absurd hkv hlt
        have hgt : keyLt k₀ k = true := by
          cases hkk : keyLt k₀ k
          · exact absurd (keyLt_eq_of_not hlt' hkk) hk
          · rfl
        simp only [insertKV, if_neg hk, if_neg hlt]
        rw [ksorted_cons_iff]
        refine ⟨?_, ih h.2⟩
        intro q hq
        rcases mem_insertKV hq with h' | h'
        · exact h' ▸ hgt
        · exact h.1 q h'

theorem alookup_foldl_insertKV {α : Type} (k : String) (fs m : List (String × α)) :
    alookup k (fs.foldl (fun m p => insertKV p.1 p.2 m) m) =
      match jlook k fs with
      | some r => some r
      | none => alookup k m := by
  induction fs generalizing m with
  | nil => simp [jlook]
  | cons p rest ih =>
    obtain ⟨k₀, v₀⟩ := p
    simp only [List.foldl_cons, ih, jlook]
    cases jlook k rest with
    | some r => rfl
    | none =>
      by_cases h : k₀ = k
      · subst h
        simp [alookup_insertKV_self]
      · simp [alookup_insertKV_ne _ _ (Ne.symm h), h]

theorem alookup_toMap {α : Type} (k : String) (fs : List (String × α)) :
    alookup k (toMap fs) = jlook k fs := by
  unfold toMap
  rw [alookup_foldl_insertKV]
  cases jlook k fs <;> rfl

theorem ksorted_toMap {α : Type} (fs : List (String × α)) : KSorted (toMap fs) := by
  unfold toMap
  suffices h : ∀ m : List (String × α), KSorted m →
      KSorted (fs.foldl (fun m p => insertKV p.1 p.2 m) m) from h [] ksorted_nil
  induction fs with
  | nil => intro m hm; exact hm
  | cons p rest ih =>
    intro m hm
    exact ih _ (ksorted_insertKV p.1 p.2 hm)

theorem mem_toMap {α : Type} {q : String × α} {fs : List (String × α)}
    (h : q ∈ toMap fs) : q ∈ fs := by
  unfold toMap at h
  suffices hgen : ∀ m : List (String × α),
      q ∈ fs.foldl (fun m p => insertKV p.1 p.2 m) m → q ∈ fs ∨ q ∈ m by
    rcases hgen [] h with h' | h'
    · exact h'
    · exact absurd h' (List.not_mem_nil q)
  clear h
  induction fs with
  | nil => intro m h; exact Or.inr h
  | cons p rest ih =>
    intro m h
    rcases ih _ h with h' | h'
    · exact Or.inl (List.mem_cons_of_mem _ h')
    · rcases mem_insertKV h' with h'' | h''
      · exact Or.inl (List.mem_cons.mpr (Or.inl h''))
      · exact Or.inr h''

theorem ksorted_keys_nodup {α : Type} {l : List (String × α)}
    (h : KSorted l) : (l.map Prod.fst).Nodup := by
  have hp : (l.map Prod.fst).Pairwise (fun a b => keyLt a b = true) :=
    List.Pairwise.map _ (fun _ _ hh => hh) h
  exact List.Pairwise.imp (fun hh => keyLt_ne hh) hp

theorem ksorted_head_lt {α : Type} {p : String × α} {t : List (String × α)}
    (h : KSorted (p :: t)) {k : String} (hk : k ∈ t.map Prod.fst) :
    keyLt p.1 k = true := by
  rcases List.mem_map.mp hk with ⟨q, hq, hq'⟩
  exact hq' ▸ (ksorted_cons_iff.mp h).1 q hq

theorem ksorted_ext {α : Type} {l₁ l₂ : List (String × α)}
    (h₁ : KSorted l₁) (h₂ : KSorted l₂)
    (hl : ∀ k, alookup k l₁ = alookup k l₂) : l₁ = l₂ := by
  induction l₁ generalizing l₂ with
  | nil =>
    cases l₂ with
    | nil => rfl
    | cons p t =>
      exfalso
      have := hl p.1
      rw [show alookup p.1 ([] : List (String × α)) = none from rfl] at this
      obtain ⟨k, v⟩ := p
      simp [alookup] at this
  | cons p t₁ ih =>
    obtain ⟨k₁, v₁⟩ := p
    cases l₂ with
    | nil =>
      exfalso
      have := hl k₁
      simp [alookup] at this
    | cons q t₂ =>
      obtain ⟨k₂, v₂⟩ := q
      have hkk : k₁ = k₂ := by
        by_contra hne
        have ha : alookup k₁ ((k₂, v₂) :: t₂) = some v₁ := by
          rw [← hl k₁]; simp [alookup]
        have hb : alookup k₂ ((k₁, v₁) :: t₁) = some v₂ := by
          rw [hl k₂]; simp [alookup]
        have hk₁ : k₁ ∈ t₂.map Prod.fst := by
          by_contra hcon
          rw [alookup, if_neg (fun hh : k₂ = k₁ => hne hh.symm)] at ha
          exact absurd (alookup_eq_none.mpr hcon) (by simp [ha])
        have hk₂ : k₂ ∈ t₁.map Prod.fst := by
          by_contra hcon
          rw [alookup, if_neg hne] at hb
          exact absurd (alookup_eq_none.mpr hcon) (by simp [hb])
        have h1 : keyLt k₂ k₁ = true := ksorted_head_lt h₂ hk₁
        have h2 : keyLt k₁ k₂ = true := ksorted_head_lt h₁ hk₂
        exact absurd h1 (by simp [keyLt_asymm h2])
      subst hkk
      have hvv : v₁ = v₂ := by
        have := hl k₁
        simp [alookup] at this
        exact this
      subst hvv
      have htail : ∀ k, alookup k t₁ = alookup k t₂ := by
        intro k
        by_cases hk : k₁ = k
        · subst hk
          have hn₁ : k₁ ∉ t₁.map Prod.fst := fun hh =>
            absurd (ksorted_head_lt h₁ hh) (by simp [keyLt_irrefl])
          have hn₂ : k₁ ∉ t₂.map Prod.fst := fun hh =>
            absurd (ksorted_head_lt h₂ hh) (by simp [keyLt_irrefl])
          rw [alookup_eq_none.mpr hn₁, alookup_eq_none.mpr hn₂]
        · have := hl k
          rwa [alookup, alookup, if_neg hk, if_neg hk] at this
      exact congrArg _ (ih (ksorted_cons_iff.mp h₁).2 (ksorted_cons_iff.mp h₂).2 htail)

theorem jlook_cons {α : Type} (k k₀ : String) (v₀ : α) (l : List (String × α)) :
    jlook k ((k₀, v₀) :: l) =
      match jlook k l with
      | some r => some r
      | none => if k₀ = k then some v₀ else none := rfl

theorem jlook_append {α : Type} (k : String) (l₁ l₂ : List (String × α)) :
    jlook k (l₁ ++ l₂) =
      match jlook k l₂ with
      | some r => some r
      | none => jlook k l₁ := by
  induction l₁ with
  | nil =>
    rw [List.nil_append]
    cases jlook k l₂ <;> rfl
  | cons p rest ih =>
    obtain ⟨k₀, v₀⟩ := p
    rw [List.cons_append, jlook_cons, jlook_cons, ih]
    cases jlook k l₂ <;> cases jlook k rest <;> rfl

/-- Map a function over the values of an association list, keeping keys. -/
def mapVals {α β : Type} (f : α → β) (l : List (String × α)) : List (String × β) :=
  l.map (fun p => (p.1, f p.2))

theorem mapVals_keys {α β : Type} (f : α → β) (l : List (String × α)) :
    (mapVals f l).map Prod.fst = l.map Prod.fst := by
  induction l with
  | nil => rfl
  | cons p rest ih => simp [mapVals, ih]

theorem ksorted_mapVals {α β : Type} (f : α → β) {l : List (String × α)}
    (h : KSorted l) : KSorted (mapVals f l) := by
  unfold mapVals KSorted
  exact List.Pairwise.map _ (fun _ _ hh => hh) h

theorem alookup_mapVals {α β : Type} (f : α → β) (k : String) (l : List (String × α)) :
    alookup k (mapVals f l) = (alookup k l).map f := by
  induction l with
  | nil => rfl
  | cons p rest ih =>
    obtain ⟨k₀, v₀⟩ := p
    simp only [mapVals, List.map_cons, alookup]
    by_cases h : k₀ = k
    · simp [h]
    · simp only [if_neg h]
      exact ih

/-! ### The typed response structures and their decoding

`tool.go` decodes into `toolResponse { Current map[string]CurrentState;
History []*History }`.  `CurrentState` and `History` are referenced from
elsewhere in the package and are not among the provided sources, so they
are modelled from the spec. -/

/-- Modelled from the spec: `CurrentState` is referenced by `tool.go` but
its declaration is not among the provided sources.  Per the spec's data
model, a per-tool state carries "actual temperature, target temperature,
temperature offset — each a numeric value", on the wire
`{actual, target, offset}` numeric fields. -/
structure CurrentState where
  actual : ℚ
  target : ℚ
  offset : ℚ
deriving DecidableEq, Repr

/-- Modelled from the spec: `History` is referenced by `tool.go` but its
declaration is not among the provided sources.  Per the spec, a history
entry is "a timestamp plus a snapshot of per-tool actual/target
temperatures at that time"; the snapshot decodes like the per-tool
current states. -/
structure History where
  timestamp : ℚ
  tools : List (String × CurrentState)
deriving DecidableEq, Repr

/-- Go `encoding/json` decoding of one numeric struct field: an absent
field or JSON `null` leaves the zero value; a number is taken as is; any
other JSON value is a type error. -/
def numFieldD (name : String) (fs : List (String × JsonVal)) : Option ℚ :=
  match jlook name fs with
  | none => some 0
  | some .null => some 0
  | some (.num q) => some q
  | some _ => none

/-- Decoding of a JSON value into `CurrentState`: an object decodes its
`actual`/`target`/`offset` fields (ignoring unknown keys), `null` is a
no-op leaving the zero value, anything else is a type error. -/
def decodeCurrentState : JsonVal → Option CurrentState
  | .obj fs => do
    let a ← numFieldD "actual" fs
    let t ← numFieldD "target" fs
    let o ← numFieldD "offset" fs
    some ⟨a, t, o⟩
  | .null => some ⟨0, 0, 0⟩
  | _ => none

/-- Decoding of a JSON object's field list into `map[string]CurrentState`:
entries are decoded and inserted in source order (a later duplicate key
overwrites), and any element that fails to decode fails the whole map. -/
def decodeCurrentMapAux (acc : List (String × CurrentState)) :
    List (String × JsonVal) → Option (List (String × CurrentState))
  | [] => some acc
  | (k, v) :: rest =>
    match decodeCurrentState v with
    | none => none
    | some cs => decodeCurrentMapAux (insertKV k cs acc) rest

/-- Decoding of a JSON object's field list into `map[string]CurrentState`. -/
def decodeCurrentMap (fs : List (String × JsonVal)) :
    Option (List (String × CurrentState)) :=
  decodeCurrentMapAux [] fs

/-- Decoding of a JSON value into the `History` struct is by field:
`timestamp` numeric, `tools` a map of per-tool states; absent fields keep
zero values; unknown keys are ignored. -/
def decodeHistory (fs : List (String × JsonVal)) : Option History := do
  let ts ← numFieldD "timestamp" fs
  let tools ←
    match jlook "tools" fs with
    | none => some []
    | some .null => some []
    | some (.obj tfs) => decodeCurrentMap tfs
    | some _ => none
  some ⟨ts, tools⟩

/-- Decoding of one `*History` slice element: JSON `null` decodes to a nil
pointer (`none`); an object decodes the struct; anything else is a type
error. -/
def decodeHistoryPtr : JsonVal → Option (Option History)
  | .null => some none
  | .obj fs => (decodeHistory fs).map some
  | _ => none

/-- The target typed structure of the normalizer (`toolResponse` in
`tool.go`): a map from tool key to current state plus the ordered history
sequence.  An element of Go's `[]*History` may be a nil pointer, hence
`Option History`. -/
structure toolResponse where
  current : List (String × CurrentState)
  history : List (Option History)
deriving DecidableEq, Repr

/-- Decoding of the `current` struct field (`map[string]CurrentState`): an
absent field or `null` leaves the nil map, an object decodes per entry,
anything else is a type error. -/
def decodeCurrentField : Option JsonVal → Option (List (String × CurrentState))
  | none => some []
  | some .null => some []
  | some (.obj cfs) => decodeCurrentMap cfs
  | some _ => none

/-- Element-wise fallible decoding of a JSON array, in order: the decode
loop of `encoding/json` over a slice, failing if any element fails. -/
def omap {α β : Type} (f : α → Option β) : List α → Option (List β)
  | [] => some []
  | x :: xs =>
    match f x with
    | none => none
    | some y =>
      match omap f xs with
      | none => none
      | some ys => some (y :: ys)

/-- Decoding of the `history` struct field (`[]*History`): an absent field
or `null` leaves the nil slice, an array decodes per element, anything
else is a type error. -/
def decodeHistoryField : Option JsonVal → Option (List (Option History))
  | none => some []
  | some .null => some []
  | some (.arr hs) => omap decodeHistoryPtr hs
  | some _ => none

/-- `json.Unmarshal` of a document into the plain `toolResponse` struct
(no custom unmarshaler): the `current` and `history` fields decode as
above, unknown keys are ignored, a missing field keeps its zero value;
`null` is a no-op on the whole struct; any other non-object document is a
type error. -/
def decodeToolResp : JsonVal → Option toolResponse
  | .obj fs => do
    let cur ← decodeCurrentField (jlook "current" fs)
    let hist ← decodeHistoryField (jlook "history" fs)
    some ⟨cur, hist⟩
  | .null => some ⟨[], []⟩
  | _ => none

/-- The error kinds `encoding/json` produces in this pipeline; they are all
distinct from a transport error. -/
inductive JsonErr : Type where
  | invalidJson : JsonErr
  | notAnObject : JsonErr
  | badShape : JsonErr
deriving DecidableEq, Repr

/-- The body of `UnmarshalJSON` after `json.Unmarshal(b, &raw)` has
produced the raw `map[string]interface{}` (Go continues identically
whether the document was an object or the no-op `null`, which leaves the
map nil): read and delete the `history` key (an absent key yields the nil
interface value, which re-marshals as JSON `null`), marshal
`{"current": rest, "history": extracted}`, decode that intermediate into
`toolResponse`, and only then assign `*r`. -/
def unmarshalFromRaw (r : toolResponse) (fs : List (String × JsonVal)) :
    toolResponse × Option JsonErr :=
  let raw := toMap fs
  let history := alookup "history" raw
  let raw' := eraseKey "history" raw
  let intermediate : JsonVal :=
    .obj [("current", .obj raw'), ("history", history.getD .null)]
  match decodeToolResp intermediate with
  | none => (r, some .badShape)
  | some i => (i, none)

/-- `ToolResponse.UnmarshalJSON` from `tool.go`, as a map from the receiver
state `r` and the bytes `b` (represented by their parse outcome, `none`
standing for bytes that are not valid JSON) to the new receiver state and
the returned error.  It mirrors the source: `json.Unmarshal` into the
generic `map[string]interface{}` accepts an object — and also the document
`null`, a no-op success that leaves the map nil — and rejects any other
document; the pipeline of `unmarshalFromRaw` then runs on the resulting
raw map. -/
def ToolResponse.UnmarshalJSON (r : toolResponse) (b : Option JsonVal) :
    toolResponse × Option JsonErr :=
  match b with
  | none => (r, some .invalidJson)
  | some v =>
    match v with
    | .obj fs => unmarshalFromRaw r fs
    | .null => unmarshalFromRaw r []
    | _ => (r, some .notAnObject)

/-- Normalization as a partial function: `UnmarshalJSON` run on a fresh
zero-valued receiver, keeping the result only when no error is returned. -/
def toolUnmarshal (v : JsonVal) : Option toolResponse :=
  match ToolResponse.UnmarshalJSON ⟨[], []⟩ (some v) with
  | (i, none) => some i
  | (_, some _) => none

/-! ### Commands, the transport collaborator and `Do` -/

/-- `URITool` from `tool.go`. -/
def URITool : String := "/api/printer/tool"

/-- `ToolCommand` from `tool.go`: the read-tool-state request, carrying
the `History` flag and the history `Limit`. -/
structure ToolCommand where
  History : Bool
  Limit : Int
deriving DecidableEq, Repr

/-- Go `fmt` verb `%t`. -/
def fmtBool : Bool → String
  | true => "true"
  | false => "false"

/-- Go `fmt` verb `%d` for `int`: decimal digits with a leading `-` for
negatives, which is exactly how `Int` prints. -/
def fmtInt (i : Int) : String := toString i

/-- The URI `ToolCommand.Do` builds:
`fmt.Sprintf("%s?history=%t&limit=%d", URITool, cmd.History, cmd.Limit)`. -/
def ToolCommand.uri (cmd : ToolCommand) : String :=
  URITool ++ "?history=" ++ fmtBool cmd.History ++ "&limit=" ++ fmtInt cmd.Limit

/-- One invocation of the transport collaborator: method, URI and body
(`none` is Go's `nil` body). -/
structure Request where
  method : String
  uri : String
  body : Option JsonVal

/-- Modelled from the spec: the transport collaborator interface
`doRequest(method, uri, body) -> (bytes, error)` consumed by every `Do`;
its declaration (`Client`) is not among the provided sources.  The error
type `E` is abstract, and returned bytes are represented by their JSON
parse outcome (`none` standing for bytes that are not valid JSON). -/
structure Client (E : Type) where
  doRequest : String → String → Option JsonVal → Except E (Option JsonVal)

/-- The error of a read `Do`: either the transport collaborator's error
value, carried unchanged, or a JSON error from decoding the response. -/
inductive DoErr (E : Type) : Type where
  | transport (e : E) : DoErr E
  | json (j : JsonErr) : DoErr E

/-- `ToolCommand.Do` from `tool.go`, instrumented with the list of
transport invocations it performs: build the query URI, issue one GET with
nil body, and on success unmarshal the bytes into a fresh `*ToolResponse`.
One wrinkle is faithful to `json.Unmarshal(b, &r)` receiving a
`**ToolResponse`: the JSON document `null` sets the pointer `r` itself to
nil without invoking the unmarshaler and without error, so `Do` returns
`(nil, nil)` there; any other document reaches `UnmarshalJSON` on the
fresh zero receiver. -/
def ToolCommand.Do {E : Type} (cmd : ToolCommand) (c : Client E) :
    List Request × Except (DoErr E) (Option toolResponse) :=
  ([⟨"GET", cmd.uri, none⟩],
    match c.doRequest "GET" cmd.uri none with
    | .error e => .error (.transport e)
    | .ok bytes =>
      match bytes with
      | none => .error (.json .invalidJson)
      | some .null => .ok none
      | some v =>
        match ToolResponse.UnmarshalJSON ⟨[], []⟩ (some v) with
        | (_, some jerr) => .error (.json jerr)
        | (r, none) => .ok (some r))

/-- Marshalling of a Go `map[string]int`: keys sorted and duplicate-free
(the map itself holds one binding per key), values as JSON numbers. -/
def encodeIntMap (m : List (String × Int)) : JsonVal :=
  .obj (mapVals (fun (n : Int) => JsonVal.num (n : ℚ)) (toMap m))

/-- `TargetCommand` from `tool.go`: target temperatures by tool key,
field tag `json:"target"`. -/
structure TargetCommand where
  Target : List (String × Int)

/-- `TargetCommand.encode`: marshals an anonymous struct of a fixed
`Command string json:"command"` field set to `"target"` with the command
embedded, flattening its fields beside the discriminator. -/
def TargetCommand.encode (cmd : TargetCommand) : JsonVal :=
  .obj [("command", .str "target"), ("target", encodeIntMap cmd.Target)]

/-- `TargetCommand.Do` from `tool.go`, instrumented with the transport
invocations: encode the body (which cannot fail for this payload type),
POST it to the tool endpoint, and return the transport's error, if any,
unchanged. -/
def TargetCommand.Do {E : Type} (cmd : TargetCommand) (c : Client E) :
    List Request × Option E :=
  ([⟨"POST", URITool, some cmd.encode⟩],
    match c.doRequest "POST" URITool (some cmd.encode) with
    | .error e => some e
    | .ok _ => none)

/-- `OffsetCommand` from `tool.go`: temperature offsets by tool key,
field tag `json:"offsets"`. -/
structure OffsetCommand where
  Offsets : List (String × Int)

/-- `OffsetCommand.encode`: discriminator `"offset"` plus the `offsets`
field. -/
def OffsetCommand.encode (cmd : OffsetCommand) : JsonVal :=
  .obj [("command", .str "offset"), ("offsets", encodeIntMap cmd.Offsets)]

/-- `OffsetCommand.Do` from `tool.go`, instrumented like
`TargetCommand.Do`. -/
def OffsetCommand.Do {E : Type} (cmd : OffsetCommand) (c : Client E) :
    List Request × Option E :=
  ([⟨"POST", URITool, some cmd.encode⟩],
    match c.doRequest "POST" URITool (some cmd.encode) with
    | .error e => some e
    | .ok _ => none)

/-- `ExtrudeCommand` from `tool.go`: the amount of filament to extrude
(negative retracts), field tag `json:"amount"`. -/
structure ExtrudeCommand where
  Amount : Int
deriving DecidableEq, Repr

/-- `ExtrudeCommand.encode`: discriminator `"extrude"` plus the `amount`
field. -/
def ExtrudeCommand.encode (cmd : ExtrudeCommand) : JsonVal :=
  .obj [("command", .str "extrude"), ("amount", .num (cmd.Amount : ℚ))]

/-- `ExtrudeCommand.Do` from `tool.go`, instrumented like
`TargetCommand.Do`. -/
def ExtrudeCommand.Do {E : Type} (cmd : ExtrudeCommand) (c : Client E) :
    List Request × Option E :=
  ([⟨"POST", URITool, some cmd.encode⟩],
    match c.doRequest "POST" URITool (some cmd.encode) with
    | .error e => some e
    | .ok _ => none)

/-- `SelectCommand` from `tool.go`: the tool to select, field tag
`json:"tool"`. -/
structure SelectCommand where
  Tool : String
deriving DecidableEq, Repr

/-- `SelectCommand.encode`: discriminator `"select"` plus the `tool`
field. -/
def SelectCommand.encode (cmd : SelectCommand) : JsonVal :=
  .obj [("command", .str "select"), ("tool", .str cmd.Tool)]

/-- `SelectCommand.Do` from `tool.go`, instrumented like
`TargetCommand.Do`. -/
def SelectCommand.Do {E : Type} (cmd : SelectCommand) (c : Client E) :
    List Request × Option E :=
  ([⟨"POST", URITool, some cmd.encode⟩],
    match c.doRequest "POST" URITool (some cmd.encode) with
    | .error e => some e
    | .ok _ => none)

/-- `FlowrateCommand` from `tool.go`: the flow-rate factor; the source
types it as a string (`Factor string json:"factor"`). -/
structure FlowrateCommand where
  Factor : String
deriving DecidableEq, Repr

/-- `FlowrateCommand.encode`: discriminator `"flowrate"` plus the
`factor` field, a JSON string. -/
def FlowrateCommand.encode (cmd : FlowrateCommand) : JsonVal :=
  .obj [("command", .str "flowrate"), ("factor", .str cmd.Factor)]

/-- `FlowrateCommand.Do` from `tool.go`, instrumented like
`TargetCommand.Do`. -/
def FlowrateCommand.Do {E : Type} (cmd : FlowrateCommand) (c : Client E) :
    List Request × Option E :=
  ([⟨"POST", URITool, some cmd.encode⟩],
    match c.doRequest "POST" URITool (some cmd.encode) with
    | .error e => some e
    | .ok _ => none)

/-- The keys of a JSON object body, in order. -/
def JsonVal.objKeys : JsonVal → List String
  | .obj fs => fs.map Prod.fst
  | _ => []

/-! ### Properties of the decoders and of the normalizer -/

theorem alookup_of_mem_nodup {α : Type} {k : String} {v : α} {l : List (String × α)}
    (hnd : (l.map Prod.fst).Nodup) (h : (k, v) ∈ l) : alookup k l = some v := by
  induction l with
  | nil => cases h
  | cons p rest ih =>
    obtain ⟨k₀, v₀⟩ := p
    simp only [List.map_cons, List.nodup_cons] at hnd
    rcases List.mem_cons.mp h with h' | h'
    · rw [Prod.mk.injEq] at h'
      rw [alookup, if_pos h'.1.symm, h'.2]
    · by_cases hk : k₀ = k
      · subst hk
        exact absurd (List.mem_map.mpr ⟨(k₀, v), h', rfl⟩) hnd.1
      · rw [alookup, if_neg hk]
        exact ih hnd.2 h'

theorem mem_of_alookup {α : Type} {k : String} {v : α} {l : List (String × α)}
    (h : alookup k l = some v) : (k, v) ∈ l := by
  induction l with
  | nil => simp [alookup] at h
  | cons p rest ih =>
    obtain ⟨k₀, v₀⟩ := p
    by_cases hk : k₀ = k
    · subst hk
      rw [alookup, if_pos rfl] at h
      injection h with h'
      subst h'
      exact List.mem_cons_self _ _
    · rw [alookup, if_neg hk] at h
      exact List.mem_cons_of_mem _ (ih h)

theorem mem_eraseKey {α : Type} {p : String × α} {k : String} {l : List (String × α)}
    (h : p ∈ eraseKey k l) : p ∈ l :=
  (eraseKey_sublist k l).subset h

theorem decodeCurrentMapAux_sound {fs : List (String × JsonVal)} :
    ∀ {acc m : List (String × CurrentState)}, KSorted acc →
      decodeCurrentMapAux acc fs = some m →
      KSorted m ∧
        ∀ k, alookup k m =
          match jlook k fs with
          | some v => decodeCurrentState v
          | none => alookup k acc := by
  induction fs with
  | nil =>
    intro acc m hacc h
    simp only [decodeCurrentMapAux] at h
    injection h with h
    subst h
    exact ⟨hacc, fun k => by simp [jlook]⟩
  | cons p rest ih =>
    intro acc m hacc h
    obtain ⟨k₀, v₀⟩ := p
    simp only [decodeCurrentMapAux] at h
    cases hv : decodeCurrentState v₀ with
    | none => rw [hv] at h; cases h
    | some cs =>
      rw [hv] at h
      obtain ⟨hm, hlook⟩ := ih (ksorted_insertKV k₀ cs hacc) h
      refine ⟨hm, fun k => ?_⟩
      rw [jlook_cons]
      cases hr : jlook k rest with
      | some r =>
        have := hlook k
        rw [hr] at this
        exact this
      | none =>
        have := hlook k
        rw [hr] at this
        by_cases hk : k₀ = k
        · subst hk
          rw [this, alookup_insertKV_self, if_pos rfl]
          exact hv.symm
        · rw [this, alookup_insertKV_ne _ _ (fun hh => hk hh.symm), if_neg hk]

theorem decodeCurrentMapAux_isSome {fs : List (String × JsonVal)} :
    ∀ acc, (∀ p ∈ fs, (decodeCurrentState p.2).isSome) →
      (decodeCurrentMapAux acc fs).isSome := by
  induction fs with
  | nil => intro acc _; simp [decodeCurrentMapAux]
  | cons p rest ih =>
    intro acc hall
    obtain ⟨k₀, v₀⟩ := p
    have h₀ : (decodeCurrentState v₀).isSome := hall (k₀, v₀) (List.mem_cons_self _ _)
    simp only [decodeCurrentMapAux]
    cases hv : decodeCurrentState v₀ with
    | none => rw [hv] at h₀; cases h₀
    | some cs =>
      exact ih (insertKV k₀ cs acc) (fun p hp => hall p (List.mem_cons_of_mem _ hp))

theorem decodeCurrentMapAux_mem_isSome {fs : List (String × JsonVal)} :
    ∀ {acc m}, decodeCurrentMapAux acc fs = some m →
      ∀ p ∈ fs, (decodeCurrentState p.2).isSome := by
  induction fs with
  | nil => intro _ _ _ p hp; cases hp
  | cons q rest ih =>
    intro acc m h p hp
    obtain ⟨k₀, v₀⟩ := q
    simp only [decodeCurrentMapAux] at h
    cases hv : decodeCurrentState v₀ with
    | none => rw [hv] at h; cases h
    | some cs =>
      rw [hv] at h
      rcases List.mem_cons.mp hp with h' | h'
      · rw [h', hv]; rfl
      · exact ih h p h'

theorem decodeCurrentMap_sound {fs : List (String × JsonVal)}
    {m : List (String × CurrentState)} (h : decodeCurrentMap fs = some m) :
    KSorted m ∧
      ∀ k, alookup k m =
        match jlook k fs with
        | some v => decodeCurrentState v
        | none => none :=
  decodeCurrentMapAux_sound ksorted_nil h

theorem decodeToolResp_pair (cur hv : JsonVal) :
    decodeToolResp (.obj [("current", cur), ("history", hv)]) =
      match decodeCurrentField (some cur), decodeHistoryField (some hv) with
      | some c, some h => some ⟨c, h⟩
      | _, _ => none := by
  have hc : jlook "current" [("current", cur), ("history", hv)] = some cur := by
    simp [jlook]
  have hh : jlook "history" [("current", cur), ("history", hv)] = some hv := by
    simp [jlook]
  simp only [decodeToolResp, hc, hh]
  cases decodeCurrentField (some cur) with
  | none => rfl
  | some c =>
    cases decodeHistoryField (some hv) with
    | none => rfl
    | some h => rfl

theorem toolUnmarshal_obj (fs : List (String × JsonVal)) :
    toolUnmarshal (.obj fs) =
      match decodeCurrentMap (eraseKey "history" (toMap fs)),
            decodeHistoryField (some ((alookup "history" (toMap fs)).getD .null)) with
      | some cur, some hist => some ⟨cur, hist⟩
      | _, _ => none := by
  simp only [toolUnmarshal, ToolResponse.UnmarshalJSON, unmarshalFromRaw]
  rw [decodeToolResp_pair]
  have : decodeCurrentField (some (.obj (eraseKey "history" (toMap fs)))) =
      decodeCurrentMap (eraseKey "history" (toMap fs)) := rfl
  rw [this]
  cases decodeCurrentMap (eraseKey "history" (toMap fs)) with
  | none => rfl
  | some cur =>
    cases decodeHistoryField (some ((alookup "history" (toMap fs)).getD .null)) with
    | none => rfl
    | some hist => rfl

theorem toolUnmarshal_obj_some {fs : List (String × JsonVal)} {r : toolResponse}
    (h : toolUnmarshal (.obj fs) = some r) :
    decodeCurrentMap (eraseKey "history" (toMap fs)) = some r.current ∧
      decodeHistoryField (some ((alookup "history" (toMap fs)).getD .null)) =
        some r.history := by
  rw [toolUnmarshal_obj] at h
  cases hc : decodeCurrentMap (eraseKey "history" (toMap fs)) with
  | none => rw [hc] at h; cases h
  | some cur =>
    cases hh : decodeHistoryField (some ((alookup "history" (toMap fs)).getD .null)) with
    | none => rw [hc, hh] at h; cases h
    | some hist =>
      rw [hc, hh] at h
      injection h with h
      subst h
      exact ⟨rfl, rfl⟩

/-- `UnmarshalJSON` on the document `null`: `json.Unmarshal` of `null`
into `map[string]interface{}` is a no-op success, after which the
pipeline runs on the nil map and assigns the zero structure. -/
theorem toolUnmarshal_null : toolUnmarshal .null = some ⟨[], []⟩ := rfl

theorem omap_mem {α β : Type} {f : α → Option β} {xs : List α} {ys : List β}
    (h : omap f xs = some ys) : ∀ y ∈ ys, ∃ x ∈ xs, f x = some y := by
  induction xs generalizing ys with
  | nil =>
    simp only [omap] at h
    injection h with h
    subst h
    intro y hy
    cases hy
  | cons x xs ih =>
    simp only [omap] at h
    cases hx : f x with
    | none => rw [hx] at h; cases h
    | some y₀ =>
      rw [hx] at h
      cases hrec : omap f xs with
      | none => rw [hrec] at h; cases h
      | some ys₀ =>
        rw [hrec] at h
        injection h with h
        subst h
        intro y hy
        rcases List.mem_cons.mp hy with h' | h'
        · exact ⟨x, List.mem_cons_self _ _, h' ▸ hx⟩
        · rcases ih hrec y h' with ⟨x', hx', hfx⟩
          exact ⟨x', List.mem_cons_of_mem _ hx', hfx⟩

theorem decodeHistory_tools_sorted {fs : List (String × JsonVal)} {hh : History}
    (h : decodeHistory fs = some hh) : KSorted hh.tools := by
  simp only [decodeHistory, Option.bind_eq_bind] at h
  cases hts : numFieldD "timestamp" fs with
  | none => rw [hts] at h; cases h
  | some ts =>
    rw [hts] at h
    simp only [Option.some_bind] at h
    cases hjt : jlook "tools" fs with
    | none =>
      rw [hjt] at h
      injection h with h
      rw [← h]
      exact ksorted_nil
    | some tv =>
      rw [hjt] at h
      cases tv with
      | null =>
        injection h with h
        rw [← h]
        exact ksorted_nil
      | obj tfs =>
        replace h : (decodeCurrentMap tfs).bind
            (fun y => some (⟨ts, y⟩ : History)) = some hh := h
        cases htl : decodeCurrentMap tfs with
        | none => rw [htl] at h; cases h
        | some tl =>
          rw [htl] at h
          replace h : some (⟨ts, tl⟩ : History) = some hh := h
          injection h with h
          rw [← h]
          exact (decodeCurrentMap_sound htl).1
      | bool b => cases h
      | num q => cases h
      | str s => cases h
      | arr xs => cases h

theorem decodeHistoryPtr_tools_sorted {v : JsonVal} {hp : Option History}
    (h : decodeHistoryPtr v = some hp) :
    ∀ hh : History, hp = some hh → KSorted hh.tools := by
  intro hh hhp
  subst hhp
  cases v with
  | null => cases h
  | obj fs =>
    simp only [decodeHistoryPtr] at h
    cases hd : decodeHistory fs with
    | none => rw [hd] at h; cases h
    | some hist =>
      rw [hd] at h
      replace h : some (some hist) = some (some hh) := h
      injection h with h
      injection h with h
      rw [← h]
      exact decodeHistory_tools_sorted hd
  | bool b => cases h
  | num q => cases h
  | str s => cases h
  | arr xs => cases h

theorem decodeHistoryField_sorted {x : Option JsonVal} {hist : List (Option History)}
    (h : decodeHistoryField x = some hist) :
    ∀ hp ∈ hist, ∀ hh : History, hp = some hh → KSorted hh.tools := by
  intro hp hmem hh hhp
  cases x with
  | none =>
    injection h with h
    rw [← h] at hmem
    cases hmem
  | some v =>
    cases v with
    | null =>
      injection h with h
      rw [← h] at hmem
      cases hmem
    | arr xs =>
      rcases omap_mem h hp hmem with ⟨x, _, hx⟩
      exact decodeHistoryPtr_tools_sorted hx hh hhp
    | bool b => cases h
    | num q => cases h
    | str s => cases h
    | obj fs => cases h

/-- Well-formedness of every normalizer output: the current map is
canonical, never holds a `history` key, and each history entry's tool
snapshot is canonical. -/
def toolResponse.WF (r : toolResponse) : Prop :=
  KSorted r.current ∧ alookup "history" r.current = none ∧
    ∀ hp ∈ r.history, ∀ hh : History, hp = some hh → KSorted hh.tools

theorem toolUnmarshal_wf {v : JsonVal} {r : toolResponse}
    (h : toolUnmarshal v = some r) : toolResponse.WF r := by
  cases v with
  | obj fs =>
    obtain ⟨hcur, hhist⟩ := toolUnmarshal_obj_some h
    obtain ⟨hks, hlook⟩ := decodeCurrentMap_sound hcur
    refine ⟨hks, ?_, decodeHistoryField_sorted hhist⟩
    have hthis := hlook "history"
    have hnone : jlook "history" (eraseKey "history" (toMap fs)) = none := by
      rw [jlook_eq_alookup (ksorted_keys_nodup (ksorted_eraseKey _ (ksorted_toMap fs))),
        alookup_eraseKey]
      simp
    rw [hnone] at hthis
    exact hthis
  | null =>
    rw [toolUnmarshal_null] at h
    injection h with h
    subst h
    exact ⟨ksorted_nil, rfl, fun hp hmem => absurd hmem (List.not_mem_nil hp)⟩
  | bool b => cases h
  | num q => cases h
  | str s => cases h
  | arr xs => cases h

/-! ### Re-serialization of a normalized structure back to flat wire form -/

/-- Marshalling of a `CurrentState` back to its wire object. -/
def encodeCurrentState (cs : CurrentState) : JsonVal :=
  .obj [("actual", .num cs.actual), ("target", .num cs.target),
    ("offset", .num cs.offset)]

/-- Marshalling of one `*History` element back to its wire value (a nil
pointer marshals to `null`). -/
def encodeHistoryPtr : Option History → JsonVal
  | none => .null
  | some hh =>
    .obj [("timestamp", .num hh.timestamp),
      ("tools", .obj (mapVals encodeCurrentState hh.tools))]

/-- The flat wire form of a normalized structure: its current keys merged
with a `history` key into one JSON object (the re-serialization the
round-trip property speaks about). -/
def toolResponse.flatten (r : toolResponse) : JsonVal :=
  .obj (mapVals encodeCurrentState r.current ++
    [("history", .arr (r.history.map encodeHistoryPtr))])

theorem decodeCurrentState_encode (cs : CurrentState) :
    decodeCurrentState (encodeCurrentState cs) = some cs := by
  obtain ⟨a, t, o⟩ := cs
  rfl

theorem decodeCurrentMap_encode {tl : List (String × CurrentState)} (h : KSorted tl) :
    decodeCurrentMap (mapVals encodeCurrentState tl) = some tl := by
  have hsome : (decodeCurrentMap (mapVals encodeCurrentState tl)).isSome := by
    apply decodeCurrentMapAux_isSome
    intro p hp
    rcases List.mem_map.mp hp with ⟨q, hq, hq'⟩
    rw [← hq']
    simp [decodeCurrentState_encode]
  cases hm : decodeCurrentMap (mapVals encodeCurrentState tl) with
  | none => rw [hm] at hsome; cases hsome
  | some m =>
    obtain ⟨hks, hlook⟩ := decodeCurrentMap_sound hm
    congr 1
    apply ksorted_ext hks h
    intro k
    have hthis := hlook k
    rw [jlook_eq_alookup (by rw [mapVals_keys]; exact ksorted_keys_nodup h),
      alookup_mapVals] at hthis
    cases hk : alookup k tl with
    | none =>
      rw [hk] at hthis
      exact hthis
    | some cs =>
      rw [hk] at hthis
      rw [hthis]
      exact decodeCurrentState_encode cs

theorem decodeHistoryPtr_encode {hp : Option History}
    (h : ∀ hh : History, hp = some hh → KSorted hh.tools) :
    decodeHistoryPtr (encodeHistoryPtr hp) = some hp := by
  cases hp with
  | none => rfl
  | some hh =>
    obtain ⟨ts, tools⟩ := hh
    have hson : KSorted tools := h ⟨ts, tools⟩ rfl
    show (decodeHistory [("timestamp", .num ts),
      ("tools", .obj (mapVals encodeCurrentState tools))]).map some =
        some (some ⟨ts, tools⟩)
    have h1 : numFieldD "timestamp" [("timestamp", JsonVal.num ts),
        ("tools", JsonVal.obj (mapVals encodeCurrentState tools))] = some ts := rfl
    have h2 : jlook "tools" [("timestamp", JsonVal.num ts),
        ("tools", JsonVal.obj (mapVals encodeCurrentState tools))] =
          some (.obj (mapVals encodeCurrentState tools)) := rfl
    simp only [decodeHistory, h1, h2, Option.bind_eq_bind, Option.some_bind]
    rw [decodeCurrentMap_encode hson]
    rfl

theorem omap_encodeHistoryPtr {l : List (Option History)}
    (h : ∀ hp ∈ l, ∀ hh : History, hp = some hh → KSorted hh.tools) :
    omap decodeHistoryPtr (l.map encodeHistoryPtr) = some l := by
  induction l with
  | nil => rfl
  | cons hp rest ih =>
    simp only [List.map_cons, omap]
    rw [decodeHistoryPtr_encode (h hp (List.mem_cons_self _ _)),
      ih (fun q hq => h q (List.mem_cons_of_mem _ hq))]

theorem alookup_toMap_flatten (r : toolResponse) (hwf : toolResponse.WF r) (k : String) :
    alookup k (toMap (mapVals encodeCurrentState r.current ++
        [("history", JsonVal.arr (r.history.map encodeHistoryPtr))])) =
      if k = "history" then some (JsonVal.arr (r.history.map encodeHistoryPtr))
      else (alookup k r.current).map encodeCurrentState := by
  rw [alookup_toMap, jlook_append]
  by_cases hk : k = "history"
  · subst hk
    have hone : jlook "history"
        [("history", JsonVal.arr (r.history.map encodeHistoryPtr))] =
          some (JsonVal.arr (r.history.map encodeHistoryPtr)) := rfl
    rw [hone, if_pos rfl]
  · have hk' : ¬ "history" = k := fun hh => hk hh.symm
    have hone : jlook k
        [("history", JsonVal.arr (r.history.map encodeHistoryPtr))] = none := by
      simp [jlook, hk']
    rw [hone, if_neg hk]
    show jlook k (mapVals encodeCurrentState r.current) = _
    rw [jlook_eq_alookup (by rw [mapVals_keys]; exact ksorted_keys_nodup hwf.1),
      alookup_mapVals]

theorem eraseKey_toMap_flatten (r : toolResponse) (hwf : toolResponse.WF r) :
    eraseKey "history" (toMap (mapVals encodeCurrentState r.current ++
        [("history", JsonVal.arr (r.history.map encodeHistoryPtr))])) =
      mapVals encodeCurrentState r.current := by
  apply ksorted_ext (ksorted_eraseKey _ (ksorted_toMap _)) (ksorted_mapVals _ hwf.1)
  intro k
  rw [alookup_eraseKey, alookup_toMap_flatten r hwf, alookup_mapVals]
  by_cases hk : k = "history"
  · subst hk
    rw [if_pos rfl]
    simp [hwf.2.1]
  · rw [if_neg hk, if_neg hk]

theorem toolUnmarshal_flatten {r : toolResponse} (hwf : toolResponse.WF r) :
    toolUnmarshal r.flatten = some r := by
  show toolUnmarshal (.obj (mapVals encodeCurrentState r.current ++
    [("history", .arr (r.history.map encodeHistoryPtr))])) = some r
  rw [toolUnmarshal_obj, eraseKey_toMap_flatten r hwf,
    decodeCurrentMap_encode hwf.1, alookup_toMap_flatten r hwf, if_pos rfl]
  show (match (some r.current : Option (List (String × CurrentState))),
      decodeHistoryField (some (.arr (r.history.map encodeHistoryPtr))) with
    | some cur, some hist => some (⟨cur, hist⟩ : toolResponse)
    | _, _ => none) = some r
  have hh : decodeHistoryField (some (.arr (r.history.map encodeHistoryPtr))) =
      some r.history := omap_encodeHistoryPtr hwf.2.2
  rw [hh]

theorem jlook_of_mem_nodup {α : Type} {k : String} {v : α} {l : List (String × α)}
    (hnd : (l.map Prod.fst).Nodup) (h : (k, v) ∈ l) : jlook k l = some v := by
  rw [jlook_eq_alookup hnd]
  exact alookup_of_mem_nodup hnd h

theorem toolUnmarshal_current_lookup {fs : List (String × JsonVal)} {r : toolResponse}
    (h : toolUnmarshal (.obj fs) = some r) (k : String) (hk : k ≠ "history") :
    alookup k r.current =
      match jlook k fs with
      | some v => decodeCurrentState v
      | none => none := by
  obtain ⟨hcur, _⟩ := toolUnmarshal_obj_some h
  obtain ⟨hks, hlook⟩ := decodeCurrentMap_sound hcur
  have hthis := hlook k
  rw [jlook_eq_alookup (ksorted_keys_nodup (ksorted_eraseKey _ (ksorted_toMap fs))),
    alookup_eraseKey, if_neg hk, alookup_toMap] at hthis
  exact hthis

theorem toolUnmarshal_history_val {fs : List (String × JsonVal)} {r : toolResponse}
    (h : toolUnmarshal (.obj fs) = some r) :
    decodeHistoryField (some ((jlook "history" fs).getD .null)) = some r.history := by
  obtain ⟨_, hh⟩ := toolUnmarshal_obj_some h
  rwa [alookup_toMap] at hh

/-! ### The claims -/

/-- C1: for every valid tool-state payload — a JSON object with unique
keys that normalizes successfully — normalization partitions the keys
exactly: every key other than `history` appears in the current map, bound
to the typed decode of exactly the raw value it had in the payload; only
such keys appear, and each at most once; and a `history` key holding an
array becomes the history sequence element by element, in order, with no
entry dropped or duplicated (a `history` key holding `null` yields the
empty sequence). -/
theorem c1_normalization_partitions_keys
    (fs : List (String × JsonVal)) (r : toolResponse)
    (hnd : (fs.map Prod.fst).Nodup)
    (h : toolUnmarshal (.obj fs) = some r) :
    (∀ k v, (k, v) ∈ fs → k ≠ "history" →
      ∃ cs, decodeCurrentState v = some cs ∧ alookup k r.current = some cs) ∧
    (∀ k, alookup k r.current ≠ none → k ≠ "history" ∧ k ∈ fs.map Prod.fst) ∧
    (r.current.map Prod.fst).Nodup ∧
    (∀ hs, ("history", JsonVal.arr hs) ∈ fs →
      omap decodeHistoryPtr hs = some r.history) ∧
    (("history", JsonVal.null) ∈ fs → r.history = []) := by
  obtain ⟨hcur, _⟩ := toolUnmarshal_obj_some h
  refine ⟨?_, ?_, ksorted_keys_nodup (toolUnmarshal_wf h).1, ?_, ?_⟩
  · intro k v hm hk
    have hj : jlook k fs = some v := jlook_of_mem_nodup hnd hm
    have hcl := toolUnmarshal_current_lookup h k hk
    rw [hj] at hcl
    have hraw : alookup k (eraseKey "history" (toMap fs)) = some v := by
      rw [alookup_eraseKey, if_neg hk, alookup_toMap, hj]
    have hsome := decodeCurrentMapAux_mem_isSome hcur (k, v) (mem_of_alookup hraw)
    replace hcl : alookup k r.current = decodeCurrentState v := hcl
    cases hv : decodeCurrentState v with
    | none => rw [hv] at hsome; cases hsome
    | some cs =>
      rw [hv] at hcl
      exact ⟨cs, rfl, hcl⟩
  · intro k hne
    by_cases hk : k = "history"
    · subst hk
      exact absurd (toolUnmarshal_wf h).2.1 hne
    · refine ⟨hk, ?_⟩
      have hcl := toolUnmarshal_current_lookup h k hk
      cases hj : jlook k fs with
      | none =>
        rw [hj] at hcl
        exact absurd hcl hne
      | some v =>
        by_contra hcon
        exact absurd (jlook_eq_none.mpr hcon) (by simp [hj])
  · intro hs hm
    have hj : jlook "history" fs = some (JsonVal.arr hs) := jlook_of_mem_nodup hnd hm
    have hv := toolUnmarshal_history_val h
    rw [hj] at hv
    exact hv
  · intro hm
    have hj : jlook "history" fs = some JsonVal.null := jlook_of_mem_nodup hnd hm
    have hv := toolUnmarshal_history_val h
    rw [hj] at hv
    replace hv : some ([] : List (Option History)) = some r.history := hv
    injection hv with hv
    exact hv.symm

/-- The sample valid payload used to witness C1: one tool plus a
one-entry history. -/
def fsSample : List (String × JsonVal) :=
  [("tool0", .obj [("actual", .num 200), ("target", .num 210), ("offset", .num 0)]),
   ("history", .arr [.obj [("timestamp", .num 1000)]])]

/-- The normalization of `fsSample`. -/
def rSample : toolResponse :=
  ⟨[("tool0", ⟨200, 210, 0⟩)], [some ⟨1000, []⟩]⟩

/-- Witness for C1: the sample payload is a valid payload and the
partition properties hold of its normalization. -/
theorem c1_normalization_partitions_keys_witness :
    (fsSample.map Prod.fst).Nodup ∧
    toolUnmarshal (.obj fsSample) = some rSample ∧
    ((∀ k v, (k, v) ∈ fsSample → k ≠ "history" →
      ∃ cs, decodeCurrentState v = some cs ∧ alookup k rSample.current = some cs) ∧
    (∀ k, alookup k rSample.current ≠ none → k ≠ "history" ∧ k ∈ fsSample.map Prod.fst) ∧
    (rSample.current.map Prod.fst).Nodup ∧
    (∀ hs, ("history", JsonVal.arr hs) ∈ fsSample →
      omap decodeHistoryPtr hs = some rSample.history) ∧
    (("history", JsonVal.null) ∈ fsSample → rSample.history = [])) :=
  ⟨by decide, by decide,
    c1_normalization_partitions_keys fsSample rSample (by decide) (by decide)⟩

/-- Counterexample to C2 as stated: the payload `{"tool0": "x"}` contains
no `history` key, yet normalization returns an error — a JSON string
cannot decode into a per-tool state — so normalization does not succeed
on every history-free JSON object. -/
theorem c2_counterexample :
    "history" ∉ ([("tool0", JsonVal.str "x")].map Prod.fst) ∧
    toolUnmarshal (.obj [("tool0", JsonVal.str "x")]) = none :=
  ⟨by decide, by decide⟩

/-- C2 (amended): for every JSON-object payload without a `history` key
whose entries all decode as tool states — including the empty object —
normalization succeeds, yields an empty history sequence, and its current
map holds exactly the payload's keys.  (As stated the claim fails: a
history-free payload with a non-decodable entry, such as
`{"tool0": "x"}`, is an error, not a success.) -/
theorem c2_no_history_normalizes (fs : List (String × JsonVal))
    (hnd : (fs.map Prod.fst).Nodup)
    (hnh : "history" ∉ fs.map Prod.fst)
    (hdec : ∀ p ∈ fs, (decodeCurrentState p.2).isSome) :
    ∃ r, toolUnmarshal (.obj fs) = some r ∧ r.history = [] ∧
      ∀ k, (alookup k r.current).isSome ↔ k ∈ fs.map Prod.fst := by
  have hj : jlook "history" fs = none := jlook_eq_none.mpr hnh
  have hcs : (decodeCurrentMap (eraseKey "history" (toMap fs))).isSome := by
    apply decodeCurrentMapAux_isSome
    intro p hp
    exact hdec p (mem_toMap (mem_eraseKey hp))
  cases hcur : decodeCurrentMap (eraseKey "history" (toMap fs)) with
  | none => rw [hcur] at hcs; cases hcs
  | some cur =>
    have hhist : decodeHistoryField
        (some ((alookup "history" (toMap fs)).getD .null)) = some [] := by
      rw [alookup_toMap, hj]
      rfl
    have hres : toolUnmarshal (.obj fs) = some ⟨cur, []⟩ := by
      rw [toolUnmarshal_obj, hcur, hhist]
    refine ⟨⟨cur, []⟩, hres, rfl, ?_⟩
    intro k
    by_cases hk : k = "history"
    · subst hk
      constructor
      · intro hs
        have hwf := (toolUnmarshal_wf hres).2.1
        rw [hwf] at hs
        cases hs
      · intro hmem
        exact absurd hmem hnh
    · have hcl := toolUnmarshal_current_lookup hres k hk
      constructor
      · intro hs
        cases hj' : jlook k fs with
        | none =>
          rw [hj'] at hcl
          replace hcl : alookup k (toolResponse.mk cur []).current = none := hcl
          rw [hcl] at hs
          cases hs
        | some v =>
          by_contra hcon
          exact absurd (jlook_eq_none.mpr hcon) (by simp [hj'])
      · intro hmem
        rcases List.mem_map.mp hmem with ⟨⟨k', v⟩, hp, hpk⟩
        simp only at hpk
        subst hpk
        have hjv : jlook k' fs = some v := jlook_of_mem_nodup hnd hp
        rw [hjv] at hcl
        replace hcl : alookup k' (toolResponse.mk cur []).current =
          decodeCurrentState v := hcl
        rw [hcl]
        exact hdec (k', v) hp

/-- Witness for the amended C2 at the boundary payload `{}`: it
normalizes without error to an empty current map and empty history. -/
theorem c2_no_history_normalizes_witness :
    ∃ r, toolUnmarshal (.obj []) = some r ∧ r.history = [] ∧
      ∀ k, (alookup k r.current).isSome ↔
        k ∈ (([] : List (String × JsonVal)).map Prod.fst) :=
  c2_no_history_normalizes [] (by decide) (by decide) (by decide)

/-- C7: normalizing a payload with no `history` key yields an empty
history; and re-serializing any normalized structure back to flat form —
its current keys merged with a `history` key into one object — and
normalizing again yields the same typed structure. -/
theorem c7_roundtrip_idempotence (fs : List (String × JsonVal)) (r : toolResponse)
    (h : toolUnmarshal (.obj fs) = some r) :
    ("history" ∉ fs.map Prod.fst → r.history = []) ∧
    toolUnmarshal r.flatten = some r := by
  constructor
  · intro hnh
    have hj : jlook "history" fs = none := jlook_eq_none.mpr hnh
    have hv := toolUnmarshal_history_val h
    rw [hj] at hv
    replace hv : some ([] : List (Option History)) = some r.history := hv
    injection hv with hv
    exact hv.symm
  · exact toolUnmarshal_flatten (toolUnmarshal_wf h)

/-- A history-free sample payload with one zero-valued heated bed. -/
def fsNoHist : List (String × JsonVal) := [("bed", .obj [])]

/-- The normalization of `fsNoHist`. -/
def rNoHist : toolResponse := ⟨[("bed", ⟨0, 0, 0⟩)], []⟩

/-- Witness for C7: the history-free sample payload round-trips. -/
theorem c7_roundtrip_idempotence_witness :
    toolUnmarshal (.obj fsNoHist) = some rNoHist ∧
    (("history" ∉ fsNoHist.map Prod.fst → rNoHist.history = []) ∧
      toolUnmarshal rNoHist.flatten = some rNoHist) :=
  ⟨by decide, c7_roundtrip_idempotence fsNoHist rNoHist (by decide)⟩

theorem decodeCurrentState_obj_fields {efs : List (String × JsonVal)}
    {cs : CurrentState} (h : decodeCurrentState (.obj efs) = some cs) :
    numFieldD "actual" efs = some cs.actual ∧
    numFieldD "target" efs = some cs.target ∧
    numFieldD "offset" efs = some cs.offset := by
  simp only [decodeCurrentState, Option.bind_eq_bind] at h
  cases ha : numFieldD "actual" efs with
  | none => rw [ha] at h; cases h
  | some a =>
    rw [ha] at h
    simp only [Option.some_bind] at h
    cases ht : numFieldD "target" efs with
    | none => rw [ht] at h; cases h
    | some t =>
      rw [ht] at h
      simp only [Option.some_bind] at h
      cases ho : numFieldD "offset" efs with
      | none => rw [ho] at h; cases h
      | some o =>
        rw [ho] at h
        simp only [Option.some_bind] at h
        injection h with h
        rw [← h]
        exact ⟨rfl, rfl, rfl⟩

/-- C8: for every valid payload, a per-tool entry that is a JSON object
survives into the current map with its `actual`, `target` and `offset`
fields preserved; and a tool object with all three numeric fields absent
decodes to the zero state rather than erroring. -/
theorem c8_tool_fields_preserved (fs : List (String × JsonVal)) (r : toolResponse)
    (k : String) (efs : List (String × JsonVal))
    (hnd : (fs.map Prod.fst).Nodup) (hk : k ≠ "history")
    (hmem : (k, JsonVal.obj efs) ∈ fs)
    (h : toolUnmarshal (.obj fs) = some r) :
    (∃ cs, alookup k r.current = some cs ∧
      (∀ q, jlook "actual" efs = some (.num q) → cs.actual = q) ∧
      (jlook "actual" efs = none → cs.actual = 0) ∧
      (∀ q, jlook "target" efs = some (.num q) → cs.target = q) ∧
      (jlook "target" efs = none → cs.target = 0) ∧
      (∀ q, jlook "offset" efs = some (.num q) → cs.offset = q) ∧
      (jlook "offset" efs = none → cs.offset = 0)) ∧
    (∀ efs' : List (String × JsonVal),
      jlook "actual" efs' = none → jlook "target" efs' = none →
      jlook "offset" efs' = none →
      decodeCurrentState (.obj efs') = some ⟨0, 0, 0⟩) := by
  obtain ⟨hcur, _⟩ := toolUnmarshal_obj_some h
  constructor
  · have hj : jlook k fs = some (.obj efs) := jlook_of_mem_nodup hnd hmem
    have hcl := toolUnmarshal_current_lookup h k hk
    rw [hj] at hcl
    replace hcl : alookup k r.current = decodeCurrentState (.obj efs) := hcl
    have hraw : alookup k (eraseKey "history" (toMap fs)) = some (.obj efs) := by
      rw [alookup_eraseKey, if_neg hk, alookup_toMap, hj]
    have hsome := decodeCurrentMapAux_mem_isSome hcur (k, JsonVal.obj efs)
      (mem_of_alookup hraw)
    cases hv : decodeCurrentState (.obj efs) with
    | none => rw [hv] at hsome; cases hsome
    | some cs =>
      rw [hv] at hcl
      obtain ⟨hfa, hft, hfo⟩ := decodeCurrentState_obj_fields hv
      refine ⟨cs, hcl, ?_, ?_, ?_, ?_, ?_, ?_⟩
      · intro q hq
        rw [numFieldD, hq] at hfa
        injection hfa with hfa
        exact hfa.symm
      · intro hq
        rw [numFieldD, hq] at hfa
        injection hfa with hfa
        exact hfa.symm
      · intro q hq
        rw [numFieldD, hq] at hft
        injection hft with hft
        exact hft.symm
      · intro hq
        rw [numFieldD, hq] at hft
        injection hft with hft
        exact hft.symm
      · intro q hq
        rw [numFieldD, hq] at hfo
        injection hfo with hfo
        exact hfo.symm
      · intro hq
        rw [numFieldD, hq] at hfo
        injection hfo with hfo
        exact hfo.symm
  · intro efs' ha ht ho
    simp [decodeCurrentState, numFieldD, ha, ht, ho]

/-- Witness for C8 on the sample payload's `tool0` entry. -/
theorem c8_tool_fields_preserved_witness :
    (fsSample.map Prod.fst).Nodup ∧
    toolUnmarshal (.obj fsSample) = some rSample ∧
    ((∃ cs, alookup "tool0" rSample.current = some cs ∧
      (∀ q, jlook "actual" [("actual", JsonVal.num 200), ("target", JsonVal.num 210),
        ("offset", JsonVal.num 0)] = some (.num q) → cs.actual = q) ∧
      (jlook "actual" [("actual", JsonVal.num 200), ("target", JsonVal.num 210),
        ("offset", JsonVal.num 0)] = none → cs.actual = 0) ∧
      (∀ q, jlook "target" [("actual", JsonVal.num 200), ("target", JsonVal.num 210),
        ("offset", JsonVal.num 0)] = some (.num q) → cs.target = q) ∧
      (jlook "target" [("actual", JsonVal.num 200), ("target", JsonVal.num 210),
        ("offset", JsonVal.num 0)] = none → cs.target = 0) ∧
      (∀ q, jlook "offset" [("actual", JsonVal.num 200), ("target", JsonVal.num 210),
        ("offset", JsonVal.num 0)] = some (.num q) → cs.offset = q) ∧
      (jlook "offset" [("actual", JsonVal.num 200), ("target", JsonVal.num 210),
        ("offset", JsonVal.num 0)] = none → cs.offset = 0)) ∧
    (∀ efs' : List (String × JsonVal),
      jlook "actual" efs' = none → jlook "target" efs' = none →
      jlook "offset" efs' = none →
      decodeCurrentState (.obj efs') = some ⟨0, 0, 0⟩)) :=
  ⟨by decide, by decide,
    c8_tool_fields_preserved fsSample rSample "tool0"
      [("actual", JsonVal.num 200), ("target", JsonVal.num 210), ("offset", JsonVal.num 0)]
      (by decide) (by decide) (List.mem_cons_self _ _) (by decide)⟩

/-- C9: a payload whose `history` key is bound to JSON `null` normalizes
exactly as the same payload with the `history` key absent (both yield an
empty history and the same current map). -/
theorem c9_history_null_equals_absent (fs₁ fs₂ : List (String × JsonVal))
    (h : "history" ∉ (fs₁ ++ fs₂).map Prod.fst) :
    toolUnmarshal (.obj (fs₁ ++ ("history", JsonVal.null) :: fs₂)) =
      toolUnmarshal (.obj (fs₁ ++ fs₂)) := by
  have hl : ∀ k, k ≠ "history" →
      jlook k (fs₁ ++ ("history", JsonVal.null) :: fs₂) = jlook k (fs₁ ++ fs₂) := by
    intro k hk
    rw [jlook_append, jlook_append, jlook_cons]
    cases hf : jlook k fs₂ with
    | some r => rfl
    | none => rw [if_neg (fun hh => hk hh.symm)]
  have hnh₂ : jlook "history" fs₂ = none := by
    apply jlook_eq_none.mpr
    intro hm
    exact h (by simp [hm])
  have hh1 : jlook "history" (fs₁ ++ ("history", JsonVal.null) :: fs₂) =
      some JsonVal.null := by
    rw [jlook_append, jlook_cons, hnh₂]
    simp
  have hh2 : jlook "history" (fs₁ ++ fs₂) = none := jlook_eq_none.mpr h
  rw [toolUnmarshal_obj, toolUnmarshal_obj]
  have hcureq : eraseKey "history" (toMap (fs₁ ++ ("history", JsonVal.null) :: fs₂)) =
      eraseKey "history" (toMap (fs₁ ++ fs₂)) := by
    apply ksorted_ext (ksorted_eraseKey _ (ksorted_toMap _))
      (ksorted_eraseKey _ (ksorted_toMap _))
    intro k
    rw [alookup_eraseKey, alookup_eraseKey, alookup_toMap, alookup_toMap]
    by_cases hk : k = "history"
    · rw [if_pos hk, if_pos hk]
    · rw [if_neg hk, if_neg hk, hl k hk]
  have hhisteq :
      (alookup "history" (toMap (fs₁ ++ ("history", JsonVal.null) :: fs₂))).getD
          JsonVal.null =
        (alookup "history" (toMap (fs₁ ++ fs₂))).getD JsonVal.null := by
    rw [alookup_toMap, alookup_toMap, hh1, hh2]
    rfl
  rw [hcureq, hhisteq]

/-- Witness for C9: adding `"history": null` to a one-tool payload leaves
normalization unchanged. -/
theorem c9_history_null_equals_absent_witness :
    "history" ∉ (([("bed", JsonVal.obj [])] ++ []).map Prod.fst) ∧
    toolUnmarshal (.obj ([("bed", JsonVal.obj [])] ++ ("history", JsonVal.null) :: [])) =
      toolUnmarshal (.obj ([("bed", JsonVal.obj [])] ++ [])) :=
  ⟨by decide, c9_history_null_equals_absent [("bed", JsonVal.obj [])] [] (by decide)⟩

theorem unmarshalJSON_obj_eq (r₀ : toolResponse) (fs : List (String × JsonVal)) :
    ToolResponse.UnmarshalJSON r₀ (some (.obj fs)) =
      match decodeToolResp (JsonVal.obj
          [("current", .obj (eraseKey "history" (toMap fs))),
           ("history", (alookup "history" (toMap fs)).getD .null)]) with
      | none => (r₀, some .badShape)
      | some i => (i, none) := by
  simp only [ToolResponse.UnmarshalJSON, unmarshalFromRaw]

/-- C10: whenever `UnmarshalJSON` returns an error — the bytes are not
valid JSON, the document is neither an object nor `null`, or the
intermediate decode fails — the receiver is left exactly as it was; the
receiver is assigned only on full success, and then it holds the
normalization of the input document. -/
theorem c10_receiver_unchanged_on_error (r₀ : toolResponse) (b : Option JsonVal) :
    ((ToolResponse.UnmarshalJSON r₀ b).2.isSome →
      (ToolResponse.UnmarshalJSON r₀ b).1 = r₀) ∧
    ((ToolResponse.UnmarshalJSON r₀ b).2 = none →
      ∃ v, b = some v ∧ toolUnmarshal v = some (ToolResponse.UnmarshalJSON r₀ b).1) := by
  cases b with
  | none => exact ⟨fun _ => rfl, fun hc => by cases hc⟩
  | some v =>
    cases v with
    | obj fs =>
      rw [unmarshalJSON_obj_eq]
      cases hd : decodeToolResp (JsonVal.obj
          [("current", .obj (eraseKey "history" (toMap fs))),
           ("history", (alookup "history" (toMap fs)).getD .null)]) with
      | none => exact ⟨fun _ => rfl, fun hc => by cases hc⟩
      | some i =>
        constructor
        · intro hs
          exact absurd hs Bool.false_ne_true
        · intro hok
          refine ⟨.obj fs, rfl, ?_⟩
          show toolUnmarshal (.obj fs) = some i
          unfold toolUnmarshal
          rw [unmarshalJSON_obj_eq, hd]
    | null =>
      constructor
      · intro hs
        exact absurd hs Bool.false_ne_true
      · intro hok
        exact ⟨.null, rfl, rfl⟩
    | bool b' => exact ⟨fun _ => rfl, fun hc => by cases hc⟩
    | num q => exact ⟨fun _ => rfl, fun hc => by cases hc⟩
    | str s => exact ⟨fun _ => rfl, fun hc => by cases hc⟩
    | arr xs => exact ⟨fun _ => rfl, fun hc => by cases hc⟩

/-- Witness for C10: a failing decode (document `true`) leaves a nonzero
receiver untouched. -/
theorem c10_receiver_unchanged_on_error_witness :
    (ToolResponse.UnmarshalJSON ⟨[("bed", ⟨1, 2, 3⟩)], []⟩
      (some (.bool true))).2.isSome ∧
    (ToolResponse.UnmarshalJSON ⟨[("bed", ⟨1, 2, 3⟩)], []⟩
      (some (.bool true))).1 = ⟨[("bed", ⟨1, 2, 3⟩)], []⟩ :=
  ⟨by decide,
    (c10_receiver_unchanged_on_error ⟨[("bed", ⟨1, 2, 3⟩)], []⟩
      (some (.bool true))).1 (by decide)⟩

/-- The field list of a JSON object body. -/
def JsonVal.objFields : JsonVal → List (String × JsonVal)
  | .obj fs => fs
  | _ => []

/-- C3: every non-read command encodes to a body whose keys are exactly
the `command` discriminator — whose value is the variant's fixed literal —
plus the variant's single declared payload field, with nothing else; the
flow-rate factor is encoded as a JSON string. -/
theorem c3_write_command_bodies (tg off : List (String × Int)) (am : Int)
    (tl fac : String) :
    ((TargetCommand.encode ⟨tg⟩).objKeys = ["command", "target"] ∧
      jlook "command" (TargetCommand.encode ⟨tg⟩).objFields = some (.str "target") ∧
      jlook "target" (TargetCommand.encode ⟨tg⟩).objFields = some (encodeIntMap tg)) ∧
    ((OffsetCommand.encode ⟨off⟩).objKeys = ["command", "offsets"] ∧
      jlook "command" (OffsetCommand.encode ⟨off⟩).objFields = some (.str "offset") ∧
      jlook "offsets" (OffsetCommand.encode ⟨off⟩).objFields = some (encodeIntMap off)) ∧
    ((ExtrudeCommand.encode ⟨am⟩).objKeys = ["command", "amount"] ∧
      jlook "command" (ExtrudeCommand.encode ⟨am⟩).objFields = some (.str "extrude") ∧
      jlook "amount" (ExtrudeCommand.encode ⟨am⟩).objFields = some (.num (am : ℚ))) ∧
    ((SelectCommand.encode ⟨tl⟩).objKeys = ["command", "tool"] ∧
      jlook "command" (SelectCommand.encode ⟨tl⟩).objFields = some (.str "select") ∧
      jlook "tool" (SelectCommand.encode ⟨tl⟩).objFields = some (.str tl)) ∧
    ((FlowrateCommand.encode ⟨fac⟩).objKeys = ["command", "factor"] ∧
      jlook "command" (FlowrateCommand.encode ⟨fac⟩).objFields = some (.str "flowrate") ∧
      jlook "factor" (FlowrateCommand.encode ⟨fac⟩).objFields = some (.str fac)) :=
  ⟨⟨rfl, rfl, rfl⟩, ⟨rfl, rfl, rfl⟩, ⟨rfl, rfl, rfl⟩, ⟨rfl, rfl, rfl⟩, ⟨rfl, rfl, rfl⟩⟩

/-- C4: the read command issues a GET to the base tool endpoint with the
`history` and `limit` query parameters rendered literally from its two
fields and no request body, whatever the transport does — the encoding is
total and cannot fail; `History = true`, `Limit = 5` yields the query
string `history=true&limit=5`. -/
theorem c4_read_request_shape {E : Type} (cmd : ToolCommand) (c : Client E) :
    (cmd.Do c).1 = [⟨"GET",
      URITool ++ "?history=" ++ fmtBool cmd.History ++ "&limit=" ++ fmtInt cmd.Limit,
      none⟩] ∧
    ToolCommand.uri ⟨true, 5⟩ = URITool ++ "?history=true&limit=5" := by
  refine ⟨rfl, ?_⟩
  show URITool ++ "?history=" ++ fmtBool true ++ "&limit=" ++ fmtInt 5 =
    URITool ++ "?history=true&limit=5"
  decide

/-- C5: every `Do` invokes the transport collaborator exactly once — no
retry, no caching — and whenever the transport returns an error, that
exact error value comes back to the caller (the read operation carries it
in the transport error kind with no response value; write operations
return it as is). -/
theorem c5_one_call_and_error_propagation {E : Type} (c : Client E)
    (tc : ToolCommand) (tg : TargetCommand) (oc : OffsetCommand)
    (ec : ExtrudeCommand) (sc : SelectCommand) (fc : FlowrateCommand) :
    ((tc.Do c).1.length = 1 ∧ (tg.Do c).1.length = 1 ∧ (oc.Do c).1.length = 1 ∧
      (ec.Do c).1.length = 1 ∧ (sc.Do c).1.length = 1 ∧ (fc.Do c).1.length = 1) ∧
    (∀ e, c.doRequest "GET" tc.uri none = .error e →
      (tc.Do c).2 = .error (.transport e)) ∧
    (∀ e, c.doRequest "POST" URITool (some tg.encode) = .error e →
      (tg.Do c).2 = some e) ∧
    (∀ e, c.doRequest "POST" URITool (some oc.encode) = .error e →
      (oc.Do c).2 = some e) ∧
    (∀ e, c.doRequest "POST" URITool (some ec.encode) = .error e →
      (ec.Do c).2 = some e) ∧
    (∀ e, c.doRequest "POST" URITool (some sc.encode) = .error e →
      (sc.Do c).2 = some e) ∧
    (∀ e, c.doRequest "POST" URITool (some fc.encode) = .error e →
      (fc.Do c).2 = some e) := by
  refine ⟨⟨rfl, rfl, rfl, rfl, rfl, rfl⟩, ?_, ?_, ?_, ?_, ?_, ?_⟩
  · intro e he
    unfold ToolCommand.Do
    rw [he]
  · intro e he
    unfold TargetCommand.Do
    rw [he]
  · intro e he
    unfold OffsetCommand.Do
    rw [he]
  · intro e he
    unfold ExtrudeCommand.Do
    rw [he]
  · intro e he
    unfold SelectCommand.Do
    rw [he]
  · intro e he
    unfold FlowrateCommand.Do
    rw [he]

/-- A transport that always fails with error value `7`. -/
def clientErr7 : Client Nat := ⟨fun _ _ _ => .error 7⟩

/-- Witness for C5: against the always-failing transport, the read and a
write command each record one call and return the error value `7`
unchanged. -/
theorem c5_one_call_and_error_propagation_witness :
    (ToolCommand.Do ⟨true, 5⟩ clientErr7).1.length = 1 ∧
    (ToolCommand.Do ⟨true, 5⟩ clientErr7).2 = .error (.transport 7) ∧
    (SelectCommand.Do ⟨"tool1"⟩ clientErr7).1.length = 1 ∧
    (SelectCommand.Do ⟨"tool1"⟩ clientErr7).2 = some 7 :=
  have h := c5_one_call_and_error_propagation clientErr7 ⟨true, 5⟩ ⟨[]⟩ ⟨[]⟩ ⟨5⟩
    ⟨"tool1"⟩ ⟨"100"⟩
  ⟨h.1.1, h.2.1 7 rfl, h.1.2.2.2.2.1, h.2.2.2.2.2.1 7 rfl⟩

theorem toolDo_snd_unmarshal {E : Type} (cmd : ToolCommand) (c : Client E)
    {v : JsonVal} (he : c.doRequest "GET" cmd.uri none = .ok (some v))
    (hv : v ≠ .null) :
    (cmd.Do c).2 =
      match ToolResponse.UnmarshalJSON ⟨[], []⟩ (some v) with
      | (_, some jerr) => .error (.json jerr)
      | (r, none) => .ok (some r) := by
  unfold ToolCommand.Do
  rw [he]
  cases v with
  | null => exact absurd rfl hv
  | obj fs => rfl
  | bool b => rfl
  | num q => rfl
  | str s => rfl
  | arr xs => rfl

/-- A transport whose response bytes are the JSON document `null`. -/
def clientNullBody : Client Nat := ⟨fun _ _ _ => .ok (some .null)⟩

/-- Counterexample to C6 as stated: a response body of `null` cannot be
parsed as a JSON object, yet `Do` returns no error at all — Go's
`json.Unmarshal(b, &r)` receives a `**ToolResponse` and maps the document
`null` to a nil response pointer without calling the unmarshaler — so
the claim that every non-object response yields an error is false. -/
theorem c6_counterexample :
    JsonVal.isObj .null = false ∧
    (ToolCommand.Do ⟨true, 5⟩ clientNullBody).2 = .ok none :=
  ⟨rfl, rfl⟩

/-- C6 (amended): for the read operation, response bytes that are not
valid JSON, and responses parsing to a non-null document whose
normalization fails, make `Do` return an error of a kind distinct from
every transport error and carry no response; the one exception is the
document `null`, which yields no error and an absent response.  (As
stated the claim fails on `null`, which is not an object but produces no
error.) -/
theorem c6_malformed_payload_error {E : Type} (cmd : ToolCommand) (c : Client E) :
    (c.doRequest "GET" cmd.uri none = .ok none →
      (cmd.Do c).2 = .error (.json .invalidJson)) ∧
    (∀ v jerr, c.doRequest "GET" cmd.uri none = .ok (some v) → v ≠ .null →
      (ToolResponse.UnmarshalJSON ⟨[], []⟩ (some v)).2 = some jerr →
      (cmd.Do c).2 = .error (.json jerr)) ∧
    (∀ (e : E) (j : JsonErr), DoErr.transport e ≠ DoErr.json j) ∧
    (c.doRequest "GET" cmd.uri none = .ok (some .null) →
      (cmd.Do c).2 = .ok none) := by
  refine ⟨?_, ?_, ?_, ?_⟩
  · intro he
    unfold ToolCommand.Do
    rw [he]
  · intro v jerr he hv hj
    rw [toolDo_snd_unmarshal cmd c he hv]
    rcases hu : ToolResponse.UnmarshalJSON ⟨[], []⟩ (some v) with ⟨i, err⟩
    rw [hu] at hj
    replace hj : err = some jerr := hj
    subst hj
    rfl
  · intro e j hc
    cases hc
  · intro he
    unfold ToolCommand.Do
    rw [he]

/-- A transport whose response bytes are not valid JSON. -/
def clientBadBytes : Client Nat := ⟨fun _ _ _ => .ok none⟩

/-- A transport whose response bytes are the JSON document `5`. -/
def clientNumBody : Client Nat := ⟨fun _ _ _ => .ok (some (.num 5))⟩

/-- Witness for the amended C6: invalid bytes and a non-object document
yield the two JSON error kinds, and the `null` document yields no error
and no response. -/
theorem c6_malformed_payload_error_witness :
    (ToolCommand.Do ⟨true, 5⟩ clientBadBytes).2 = .error (.json .invalidJson) ∧
    (ToolCommand.Do ⟨false, 0⟩ clientNumBody).2 = .error (.json .notAnObject) ∧
    (ToolCommand.Do ⟨true, 5⟩ clientNullBody).2 = .ok none :=
  ⟨(c6_malformed_payload_error ⟨true, 5⟩ clientBadBytes).1 rfl,
    (c6_malformed_payload_error ⟨false, 0⟩ clientNumBody).2.1 (.num 5) .notAnObject rfl
      (fun hh => JsonVal.noConfusion hh) rfl,
    (c6_malformed_payload_error ⟨true, 5⟩ clientNullBody).2.2.2 rfl⟩
